import Mathlib

/-!
Verification of dvdwrap (a FUSE filesystem exposing DVD image directories as
single concatenated `.mpg` files).  This file is a shallow embedding of the
current `dvdwrap_fuse.c`: the scan of `VIDEO_TS` (`dvdwrap_scan_videots`),
attribute queries (`dvdwrap_getattr`), open/read/release of the virtual
concatenated file (`dvdwrap_open`, `dvdwrap_read`, `dvdwrap_release`), and the
suffix-based path classification shared by `dvdwrap_getattr` and
`dvdwrap_open`.

Modelling conventions:
* A byte is a `Nat`; a real file's content is a `List Nat`; `lstat` sizes are
  the lengths of those lists (the C `st_size` / `uint64_t` values are
  non-negative and far from overflow in all claims considered, so `Nat` is
  exact).
* The on-disk state visible to the program is a `Filesystem`: whether
  `VIDEO_TS/VIDEO_TS.IFO` exists, the content of each `VIDEO_TS/VTS_%02d_%01d.VOB`
  (indexed by major/minor number; `none` = `lstat` fails), and whether
  `open(2)` succeeds on each VOB (modelling open-time failure after a
  successful `lstat`).
* A file descriptor is abstracted as the minor index of the VOB it was opened
  for (descriptors within one handle are distinguished by their segment), and
  the data it reads is carried alongside it in the handle.
* C `for` loops with a fixed bound are embedded as structurally recursive
  functions on the remaining iteration count, so that everything computes.
-/

namespace Dvdwrap

/-- `#define MAX_VTS_MIN 10` -/
def MAX_VTS_MIN : Nat := 10

/-- `#define MAX_VTS_MAJ 100` -/
def MAX_VTS_MAJ : Nat := 100

/-- `errno.h` value used by the program (`-ENOENT` is returned on failure). -/
def ENOENT : Int := 2

/-! ### Path classification (`dvdwrap_getattr` / `dvdwrap_open`)

Both `dvdwrap_getattr` and `dvdwrap_open` classify a path with
`strcmp(&targetpath[strlen(targetpath) - strlen(FILE_EXTENSION)], FILE_EXTENSION) == 0`,
i.e. by comparing the last `strlen(FILE_EXTENSION)` characters with
`FILE_EXTENSION`, and on a match strip the suffix
(`targetpath[strlen(targetpath) - strlen(FILE_EXTENSION)] = '\0'`).
C strings are embedded as `List Char`.  For strings shorter than the suffix
the C code indexes out of bounds, so theorems about the classification carry
the hypothesis `FILE_EXTENSION.length ≤ s.length`. -/

/-- `#define FILE_EXTENSION ".mpg"` -/
def FILE_EXTENSION : List Char := ['.', 'm', 'p', 'g']

/-- The classification test from `dvdwrap_getattr`/`dvdwrap_open`: the last
four characters of the path equal `".mpg"`. -/
def ends_with_extension (s : List Char) : Bool :=
  decide (s.drop (s.length - FILE_EXTENSION.length) = FILE_EXTENSION)

/-- Suffix removal (`targetpath[strlen(targetpath) - strlen(FILE_EXTENSION)] = '\0'`). -/
def strip_extension (s : List Char) : List Char :=
  s.take (s.length - FILE_EXTENSION.length)

/-- Modelled from the spec (not from the code): the spec's classification rule,
"if the leaf name, stripped of the fixed suffix, parses as a non-negative
integer of at most two decimal digits, the entity is a synthetic titleset
file".  Used only to compare the spec's rule with the program's actual
classification. -/
def spec_classifies_titleset (s : List Char) : Bool :=
  ends_with_extension s &&
    (let stem := strip_extension s
     decide (stem ≠ []) && decide (stem.length ≤ 2) && stem.all Char.isDigit)

/-! ### The on-disk state -/

/-- The part of the real filesystem under one DVD image root that the program
consults: existence of the index file, the VOB contents, and open(2)
success. -/
structure Filesystem where
  ifo : Bool
  vob : Nat → Nat → Option (List Nat)
  openable : Nat → Nat → Bool

/-- Size reported by `lstat` for `VTS_<maj>_<min>.VOB` (0 if absent; only used
in statements where the file is present). -/
def vobSize (vob : Nat → Nat → Option (List Nat)) (maj min : Nat) : Nat :=
  ((vob maj min).getD []).length

/-! ### `dvdwrap_scan_videots`

```
for (maj = 1; maj < MAX_VTS_MAJ; maj++) {
    for (min = 1; min < MAX_VTS_MIN; min++) {
        if (lstat(vtspath, &st) < 0) break;
        titlesize[maj] += st.st_size;
    }
    if (min == 1) break;
    if (titlesize[maj] > longest_size) { longest_size = titlesize[maj]; longest_maj = maj; }
}
if (longest_maj) { *vts_maj = longest_maj; *total_size = longest_size; return 0; }
return -1;
```
The inner and outer loops are embedded with an explicit count of remaining
iterations (`fuel`), which for the inner loop starts at `MAX_VTS_MIN - 1`
(minors 1..9) and for the outer loop at `MAX_VTS_MAJ - 1` (majors 1..99). -/

/-- Inner loop of `dvdwrap_scan_videots`: starting at minor index `min` with
accumulated size `acc`, sum VOB sizes until the first missing minor.  Returns
the pair (accumulated `titlesize[maj]`, value of `min` when the loop exits). -/
def vts_minor_go (vob : Nat → Nat → Option (List Nat)) (maj : Nat) :
    Nat → Nat → Nat → Nat × Nat
  | 0, min, acc => (acc, min)
  | fuel + 1, min, acc =>
    match vob maj min with
    | none => (acc, min)
    | some d => vts_minor_go vob maj fuel (min + 1) (acc + d.length)

/-- The inner loop as run by the program: minors from 1, `titlesize` from 0. -/
def vts_minor_scan (vob : Nat → Nat → Option (List Nat)) (maj : Nat) : Nat × Nat :=
  vts_minor_go vob maj (MAX_VTS_MIN - 1) 1 0

/-- Outer loop of `dvdwrap_scan_videots`: iterate majors, tracking
`(longest_maj, longest_size)`. -/
def vts_major_go (vob : Nat → Nat → Option (List Nat)) :
    Nat → Nat → Nat → Nat → Nat × Nat
  | 0, _, longest_maj, longest_size => (longest_maj, longest_size)
  | fuel + 1, maj, longest_maj, longest_size =>
    let r := vts_minor_scan vob maj
    if r.2 = 1 then (longest_maj, longest_size)
    else if longest_size < r.1 then vts_major_go vob fuel (maj + 1) maj r.1
    else vts_major_go vob fuel (maj + 1) longest_maj longest_size

/-- `dvdwrap_scan_videots`: `some (vts_maj, total_size)` on success (return 0),
`none` on `return -1`. -/
def dvdwrap_scan_videots (vob : Nat → Nat → Option (List Nat)) : Option (Nat × Nat) :=
  let r := vts_major_go vob (MAX_VTS_MAJ - 1) 1 0 0
  if r.1 ≠ 0 then some r else none

/-! ### `dvdwrap_getattr` (synthetic-file branch)

After the suffix test succeeds and the suffix is stripped, the function
`lstat`s `VIDEO_TS/VIDEO_TS.IFO` (failure: `-ENOENT`), then runs
`dvdwrap_scan_videots` (failure: `-ENOENT`), and on success reports the
aggregate size as `st_size`. -/

/-- Result of the attribute query: reported size, or a negative errno. -/
inductive StatResult where
  | ok (size : Nat)
  | err (e : Int)
deriving DecidableEq

/-- `dvdwrap_getattr` on a path classified as a synthetic titleset file, given
the DVD image root's state. -/
def dvdwrap_getattr (fs : Filesystem) : StatResult :=
  if fs.ifo then
    match dvdwrap_scan_videots fs.vob with
    | some r => .ok r.2
    | none => .err (-ENOENT)
  else .err (-ENOENT)

/-! ### Per-handle data (`dvdwrap_vts_t`, `dvdwrap_fh_t`)

`dvdwrap_vts_t` holds an `fd` and a `size`; the model additionally carries the
content of the file the descriptor refers to (`data`), which in C lives behind
the descriptor.  `dvdwrap_fh_t.vts` models array entries 1..`MAX_VTS_MIN`-1
(entry 0 is never touched by the open/read/release loops, which all start at
minor 1). -/

structure dvdwrap_vts_t where
  fd : Int
  size : Nat
  data : List Nat
deriving DecidableEq

structure dvdwrap_fh_t where
  vts : List dvdwrap_vts_t
  total_size : Nat
deriving DecidableEq

/-- A `calloc`-zeroed `dvdwrap_vts_t` entry. -/
def vts_zero : dvdwrap_vts_t := ⟨0, 0, []⟩

/-- Concatenation of the segment contents of a handle, in ordinal order. -/
def vts_concat (l : List dvdwrap_vts_t) : List Nat :=
  (l.map fun v => v.data).flatten

/-- Sum of the recorded segment sizes. -/
def vts_sum_sizes (l : List dvdwrap_vts_t) : Nat :=
  (l.map fun v => v.size).sum

/-- Consistency of a handle with the files behind its descriptors: each
recorded size is the length of the corresponding file content, and
`total_size` is their sum.  Every handle produced by `dvdwrap_open` satisfies
this. -/
def fh_wf (h : dvdwrap_fh_t) : Prop :=
  (∀ v ∈ h.vts, v.data.length = v.size) ∧ h.total_size = vts_sum_sizes h.vts

/-! ### `dvdwrap_read`

```
if (offset >= private->total_size) return 0;
while (total < size) {
    off_t thisoffset = offset;
    off_t thissize = size - total;
    for (min = 1; min < MAX_VTS_MIN; min++) {
        if (thisoffset < private->vts[min].size) break;
        thisoffset -= private->vts[min].size;
    }
    if (min == MAX_VTS_MIN) break;
    if (thissize > private->vts[min].size - thisoffset)
        thissize = private->vts[min].size - thisoffset;
    lseek(private->vts[min].fd, thisoffset, SEEK_SET);
    rc = read(private->vts[min].fd, buf, thissize);
    if (rc < 0) return rc;
    buf += rc; offset += rc; total += rc;
}
return total;
```
The model returns the list of bytes delivered (the C function fills `buf` and
returns their count).  A `read(2)` on a regular file positioned at
`thisoffset` delivers `(data.drop thisoffset).take thissize` and never fails
here, so the `rc < 0` branch is unreachable in the model.  The `while` loop is
embedded with fuel `size + 1`: each iteration delivers at least one byte for a
consistent handle (`fh_wf`), so the fuel is never exhausted on such handles. -/

/-- The localization `for` loop: find the segment containing `offset`,
returning it with the segment-local offset, or `none` when the loop runs off
the end of the table (`min == MAX_VTS_MIN`). -/
def vts_locate : List dvdwrap_vts_t → Nat → Option (dvdwrap_vts_t × Nat)
  | [], _ => none
  | v :: rest, off => if off < v.size then some (v, off) else vts_locate rest (off - v.size)

/-- The `while (total < size)` loop of `dvdwrap_read`; `remaining` is
`size - total`, and the bytes already delivered are the accumulated result. -/
def dvdwrap_read_loop (vts : List dvdwrap_vts_t) : Nat → Nat → Nat → List Nat
  | _, _, 0 => []
  | offset, remaining, fuel + 1 =>
    if remaining = 0 then []
    else
      match vts_locate vts offset with
      | none => []
      | some (v, thisoffset) =>
        let thissize := min remaining (v.size - thisoffset)
        let chunk := (v.data.drop thisoffset).take thissize
        chunk ++ dvdwrap_read_loop vts (offset + chunk.length) (remaining - chunk.length) fuel

/-- `dvdwrap_read`: the bytes delivered for a request of `size` bytes at
`offset` on handle `h`. -/
def dvdwrap_read (h : dvdwrap_fh_t) (size offset : Nat) : List Nat :=
  if h.total_size ≤ offset then []
  else dvdwrap_read_loop h.vts offset size (size + 1)

/-! ### `dvdwrap_release`

```
for (min = 1; min < MAX_VTS_MIN; min++)
    if (private->vts[min].size) close(private->vts[min].fd);
free(private);
fi->fh = 0;
return -ENOENT;
```
The model returns the list of descriptors passed to `close`, together with the
function's return value. -/

def dvdwrap_release (h : dvdwrap_fh_t) : List Int × Int :=
  ((h.vts.filter fun v => v.size != 0).map fun v => v.fd, -ENOENT)

/-! ### `dvdwrap_open`

After the suffix check and strip (see `ends_with_extension`), the function
runs `dvdwrap_scan_videots` (failure: `-ENOENT`), `calloc`s the handle, then
opens the winning titleset's VOBs from minor 1, breaking at the first missing
minor; if an individual `open(2)` fails it calls `dvdwrap_release` on the
partial handle and returns `-ENOENT`.  The model records which descriptors
were opened and, on the failure path, which ones the embedded release
closed. -/

structure OpenLoopResult where
  vts : List dvdwrap_vts_t
  total_size : Nat
  opened : List Int
  ok : Bool
deriving DecidableEq

/-- The VOB-opening loop of `dvdwrap_open` (minors `min`..9, `fuel` remaining
iterations).  Produces the table entries it fills (remaining entries stay
`calloc`-zeroed), the accumulated `total_size`, the descriptors successfully
opened (the descriptor for minor `m` is modelled as `m`), and whether the loop
completed without an `open(2)` failure. -/
def dvdwrap_open_vobs (vob : Nat → Nat → Option (List Nat))
    (openable : Nat → Nat → Bool) (maj : Nat) :
    Nat → Nat → OpenLoopResult
  | 0, _ => ⟨[], 0, [], true⟩
  | fuel + 1, min =>
    match vob maj min with
    | none => ⟨List.replicate (fuel + 1) vts_zero, 0, [], true⟩
    | some d =>
      if openable maj min then
        let r := dvdwrap_open_vobs vob openable maj fuel (min + 1)
        ⟨⟨(min : Int), d.length, d⟩ :: r.vts, d.length + r.total_size,
          (min : Int) :: r.opened, r.ok⟩
      else
        ⟨⟨-1, 0, []⟩ :: List.replicate fuel vts_zero, 0, [], false⟩

/-- Outcome of `dvdwrap_open`: the handle stored in `fi->fh`, or the negative
errno returned. -/
inductive OpenResult where
  | ok (h : dvdwrap_fh_t)
  | err (e : Int)
deriving DecidableEq

/-- `dvdwrap_open` outcome plus the descriptor bookkeeping needed to state
resource-safety claims: descriptors opened during the call, and descriptors
closed by the cleanup `dvdwrap_release` on the failure path. -/
structure OpenTrace where
  result : OpenResult
  opened : List Int
  closed_on_fail : List Int
deriving DecidableEq

def dvdwrap_open (fs : Filesystem) : OpenTrace :=
  match dvdwrap_scan_videots fs.vob with
  | none => ⟨.err (-ENOENT), [], []⟩
  | some r =>
    let l := dvdwrap_open_vobs fs.vob fs.openable r.1 (MAX_VTS_MIN - 1) 1
    let h : dvdwrap_fh_t := ⟨l.vts, l.total_size⟩
    if l.ok then ⟨.ok h, l.opened, []⟩
    else ⟨.err (-ENOENT), l.opened, (dvdwrap_release h).1⟩

/-- Pointwise update of the VOB store at one (major, minor) slot; used to
state that a result does not depend on that slot (e.g. the minor-0 menu
segment). -/
def set_vob (fs : Filesystem) (maj min : Nat) (d : Option (List Nat)) : Filesystem :=
  { fs with vob := fun M m => if M = maj ∧ m = min then d else fs.vob M m }

/-! ### Concrete states used as witnesses and counterexamples -/

/-- A DVD root with one titleset (major 1, segments of 3 and 2 bytes) plus a
7-byte menu segment at minor 0. -/
def fs_main : Filesystem :=
  { ifo := true
    vob := fun maj min =>
      if maj = 1 ∧ min = 1 then some [1, 2, 3]
      else if maj = 1 ∧ min = 2 then some [4, 5]
      else if maj = 1 ∧ min = 0 then some [9, 9, 9, 9, 9, 9, 9]
      else none
    openable := fun _ _ => true }

/-- The handle `dvdwrap_open` builds for `fs_main`. -/
def fh_main : dvdwrap_fh_t :=
  ⟨⟨1, 3, [1, 2, 3]⟩ :: ⟨2, 2, [4, 5]⟩ :: List.replicate 7 vts_zero, 5⟩

/-- A DVD root with titlesets at majors 1 (5 bytes) and 3 (10 bytes) and no
titleset at major 2. -/
def fs_gap_major : Filesystem :=
  { ifo := true
    vob := fun maj min =>
      if maj = 1 ∧ min = 1 then some [1, 1, 1, 1, 1]
      else if maj = 3 ∧ min = 1 then some (List.replicate 10 2)
      else none
    openable := fun _ _ => true }

/-- A DVD root with titlesets at adjacent majors 1 (2 bytes) and 2 (7 bytes). -/
def fs_two_titlesets : Filesystem :=
  { ifo := true
    vob := fun maj min =>
      if maj = 1 ∧ min = 1 then some [1, 2]
      else if maj = 2 ∧ min = 1 then some [1, 2, 3, 4, 5, 6, 7]
      else none
    openable := fun _ _ => true }

/-- A DVD root whose only titleset is at major 2 (nothing at major 1). -/
def fs_only_major2 : Filesystem :=
  { ifo := true
    vob := fun maj min => if maj = 2 ∧ min = 1 then some [1, 2, 3] else none
    openable := fun _ _ => true }

/-- A DVD root with a zero-byte segment at minor 1 followed by a 5-byte
segment at minor 2. -/
def fs_empty_segment : Filesystem :=
  { ifo := true
    vob := fun maj min =>
      if maj = 1 ∧ min = 1 then some []
      else if maj = 1 ∧ min = 2 then some [9, 9, 9, 9, 9]
      else none
    openable := fun _ _ => true }

/-- The handle `dvdwrap_open` builds for `fs_empty_segment`. -/
def fh_empty_segment : dvdwrap_fh_t :=
  ⟨⟨1, 0, []⟩ :: ⟨2, 5, [9, 9, 9, 9, 9]⟩ :: List.replicate 7 vts_zero, 5⟩

/-- A DVD root with a valid titleset but no `VIDEO_TS.IFO` index file. -/
def fs_no_ifo : Filesystem :=
  { ifo := false
    vob := fun maj min => if maj = 1 ∧ min = 1 then some [7, 7, 7] else none
    openable := fun _ _ => true }

/-- The handle `dvdwrap_open` builds for `fs_no_ifo`. -/
def fh_no_ifo : dvdwrap_fh_t :=
  ⟨⟨1, 3, [7, 7, 7]⟩ :: List.replicate 8 vts_zero, 3⟩

/-! ## Supporting lemmas -/

theorem vts_concat_cons (v : dvdwrap_vts_t) (rest : List dvdwrap_vts_t) :
    vts_concat (v :: rest) = v.data ++ vts_concat rest := rfl

theorem vts_concat_length (l : List dvdwrap_vts_t)
    (hwf : ∀ v ∈ l, v.data.length = v.size) :
    (vts_concat l).length = vts_sum_sizes l := by
  induction l with
  | nil => rfl
  | cons v rest ih =>
    have hv := hwf v (List.mem_cons_self _ _)
    rw [vts_concat_cons, List.length_append, hv,
      ih fun u hu => hwf u (List.mem_cons_of_mem _ hu)]
    rfl

theorem vts_locate_none_le (l : List dvdwrap_vts_t) :
    ∀ off, (∀ v ∈ l, v.data.length = v.size) → vts_locate l off = none →
      (vts_concat l).length ≤ off := by
  induction l with
  | nil => intro off _ _; simp [vts_concat]
  | cons v rest ih =>
    intro off hwf h
    by_cases hc : off < v.size
    · simp [vts_locate, hc] at h
    · simp only [vts_locate, if_neg hc] at h
      have hrest := ih (off - v.size) (fun u hu => hwf u (List.mem_cons_of_mem _ hu)) h
      have hv := hwf v (List.mem_cons_self _ _)
      rw [vts_concat_cons, List.length_append, hv]
      omega

theorem vts_locate_some (l : List dvdwrap_vts_t) :
    ∀ off v toff, (∀ u ∈ l, u.data.length = u.size) →
      vts_locate l off = some (v, toff) →
      v.data.length = v.size ∧ toff < v.size ∧
        ∃ t, (vts_concat l).drop off = v.data.drop toff ++ t := by
  induction l with
  | nil => intro off v toff _ h; simp [vts_locate] at h
  | cons u rest ih =>
    intro off v toff hwf h
    have hu := hwf u (List.mem_cons_self _ _)
    by_cases hc : off < u.size
    · simp only [vts_locate, if_pos hc, Option.some.injEq, Prod.mk.injEq] at h
      obtain ⟨rfl, rfl⟩ := h
      refine ⟨hu, hc, vts_concat rest, ?_⟩
      rw [vts_concat_cons, List.drop_append_of_le_length (by omega)]
    · simp only [vts_locate, if_neg hc] at h
      obtain ⟨h1, h2, t, h3⟩ :=
        ih (off - u.size) v toff (fun w hw => hwf w (List.mem_cons_of_mem _ hw)) h
      refine ⟨h1, h2, t, ?_⟩
      rw [vts_concat_cons, show off = u.data.length + (off - u.size) by omega,
        List.drop_append]
      exact h3

theorem dvdwrap_read_loop_eq (vts : List dvdwrap_vts_t)
    (hwf : ∀ v ∈ vts, v.data.length = v.size) :
    ∀ fuel offset remaining, remaining < fuel →
      dvdwrap_read_loop vts offset remaining fuel =
        ((vts_concat vts).drop offset).take remaining := by
  intro fuel
  induction fuel with
  | zero => intro o r h; omega
  | succ fuel ih =>
    intro offset remaining hlt
    by_cases h0 : remaining = 0
    · subst h0; simp [dvdwrap_read_loop]
    · cases hl : vts_locate vts offset with
      | none =>
        have hle := vts_locate_none_le vts offset hwf hl
        simp [dvdwrap_read_loop, if_neg h0, hl, List.drop_eq_nil_of_le hle]
      | some p =>
        obtain ⟨v, toff⟩ := p
        obtain ⟨hdl, hts, t, hdrop⟩ := vts_locate_some vts offset v toff hwf hl
        have hmlen : min remaining (v.size - toff) ≤ (v.data.drop toff).length := by
          rw [List.length_drop, hdl]; omega
        have hchunklen :
            ((v.data.drop toff).take (min remaining (v.size - toff))).length =
              min remaining (v.size - toff) := by
          rw [List.length_take, List.length_drop, hdl]; omega
        have hchunk :
            (v.data.drop toff).take (min remaining (v.size - toff)) =
              ((vts_concat vts).drop offset).take (min remaining (v.size - toff)) := by
          rw [hdrop, List.take_append_of_le_length hmlen]
        have hrec := ih (offset + min remaining (v.size - toff))
          (remaining - min remaining (v.size - toff)) (by omega)
        simp only [dvdwrap_read_loop, if_neg h0, hl, hchunklen]
        rw [hrec, hchunk, ← List.drop_drop,
          ← List.take_add ((vts_concat vts).drop offset)
            (min remaining (v.size - toff)) (remaining - min remaining (v.size - toff)),
          show min remaining (v.size - toff) + (remaining - min remaining (v.size - toff)) =
            remaining by omega]

/-- `dvdwrap_read` on any handle consistent with its files returns the slice
of the concatenated segment contents selected by `offset` and `size`. -/
theorem dvdwrap_read_wf (h : dvdwrap_fh_t) (hwf : fh_wf h) (size offset : Nat) :
    dvdwrap_read h size offset = ((vts_concat h.vts).drop offset).take size := by
  obtain ⟨h1, h2⟩ := hwf
  by_cases hof : h.total_size ≤ offset
  · have hle : (vts_concat h.vts).length ≤ offset := by
      rw [vts_concat_length _ h1]; omega
    rw [dvdwrap_read, if_pos hof, List.drop_eq_nil_of_le hle, List.take_nil]
  · rw [dvdwrap_read, if_neg hof]
    exact dvdwrap_read_loop_eq h.vts h1 (size + 1) offset size (by omega)

theorem dvdwrap_open_vobs_wf (vob : Nat → Nat → Option (List Nat))
    (openable : Nat → Nat → Bool) (maj : Nat) :
    ∀ fuel min,
      (∀ v ∈ (dvdwrap_open_vobs vob openable maj fuel min).vts,
        v.data.length = v.size) ∧
      (dvdwrap_open_vobs vob openable maj fuel min).total_size =
        vts_sum_sizes (dvdwrap_open_vobs vob openable maj fuel min).vts := by
  intro fuel
  induction fuel with
  | zero =>
    intro min
    exact ⟨by intro v hv; simp [dvdwrap_open_vobs] at hv, rfl⟩
  | succ fuel ih =>
    intro min
    cases hv : vob maj min with
    | none =>
      refine ⟨?_, ?_⟩
      · intro v hmem
        simp only [dvdwrap_open_vobs, hv] at hmem
        rw [List.eq_of_mem_replicate hmem]
        rfl
      · simp [dvdwrap_open_vobs, hv, vts_sum_sizes, List.map_replicate, vts_zero]
    | some d =>
      by_cases hop : openable maj min = true
      · obtain ⟨ih1, ih2⟩ := ih (min + 1)
        refine ⟨?_, ?_⟩
        · intro v hmem
          simp only [dvdwrap_open_vobs, hv, hop, if_pos, List.mem_cons] at hmem
          rcases hmem with rfl | hmem
          · rfl
          · exact ih1 v hmem
        · simp only [dvdwrap_open_vobs, hv, hop, if_pos]
          rw [ih2]
          rfl
      · rw [Bool.not_eq_true] at hop
        refine ⟨?_, ?_⟩
        · intro v hmem
          simp only [dvdwrap_open_vobs, hv, hop, Bool.false_eq_true, if_false,
            List.mem_cons] at hmem
          rcases hmem with rfl | hmem
          · rfl
          · rw [List.eq_of_mem_replicate hmem]; rfl
        · simp [dvdwrap_open_vobs, hv, hop, vts_sum_sizes, List.map_replicate, vts_zero]

/-- Every handle returned by a successful `dvdwrap_open` is consistent with
the files behind its descriptors. -/
theorem dvdwrap_open_wf (fs : Filesystem) (h : dvdwrap_fh_t)
    (hok : (dvdwrap_open fs).result = OpenResult.ok h) : fh_wf h := by
  unfold dvdwrap_open at hok
  cases hscan : dvdwrap_scan_videots fs.vob with
  | none => rw [hscan] at hok; simp at hok
  | some r =>
    rw [hscan] at hok
    simp only [] at hok
    by_cases hl : (dvdwrap_open_vobs fs.vob fs.openable r.1 (MAX_VTS_MIN - 1) 1).ok = true
    · rw [if_pos hl] at hok
      obtain rfl : _ = h := congrArg (fun t => t) (OpenResult.ok.inj hok)
      obtain ⟨w1, w2⟩ := dvdwrap_open_vobs_wf fs.vob fs.openable r.1 (MAX_VTS_MIN - 1) 1
      exact ⟨w1, w2⟩
    · rw [if_neg hl] at hok
      simp at hok

theorem vts_minor_go_run (vob : Nat → Nat → Option (List Nat)) (maj : Nat) :
    ∀ (j min acc fuel : Nat),
      (∀ k, k < j → vob maj (min + k) ≠ none) →
      vob maj (min + j) = none →
      j ≤ fuel →
      vts_minor_go vob maj fuel min acc =
        (acc + ((List.range' min j).map fun i => vobSize vob maj i).sum, min + j) := by
  intro j
  induction j with
  | zero =>
    intro min acc fuel _ hgap _
    rw [Nat.add_zero] at hgap
    cases fuel with
    | zero => simp [vts_minor_go]
    | succ fuel => simp [vts_minor_go, hgap]
  | succ j ih =>
    intro min acc fuel hpres hgap hfuel
    have h0 : vob maj min ≠ none := by
      have := hpres 0 (Nat.succ_pos j)
      simpa using this
    obtain ⟨d, hd⟩ : ∃ d, vob maj min = some d := by
      cases hv : vob maj min with
      | none => exact absurd hv h0
      | some d => exact ⟨d, rfl⟩
    cases fuel with
    | zero => omega
    | succ fuel =>
      have step : vts_minor_go vob maj (fuel + 1) min acc =
          vts_minor_go vob maj fuel (min + 1) (acc + d.length) := by
        simp [vts_minor_go, hd]
      rw [step, ih (min + 1) (acc + d.length) fuel ?_ ?_ (by omega)]
      · have hsz : vobSize vob maj min = d.length := by rw [vobSize, hd]; rfl
        rw [List.range'_succ, List.map_cons, List.sum_cons, hsz]
        refine Prod.ext ?_ ?_
        · simp; omega
        · simp; omega
      · intro k hk
        have := hpres (k + 1) (by omega)
        simpa [Nat.add_assoc, Nat.add_comm 1 k] using this
      · have : min + 1 + j = min + (j + 1) := by omega
        rw [this]
        exact hgap

theorem vts_minor_go_min_le (vob : Nat → Nat → Option (List Nat)) (maj : Nat) :
    ∀ fuel min acc, min ≤ (vts_minor_go vob maj fuel min acc).2 := by
  intro fuel
  induction fuel with
  | zero => intro min acc; exact Nat.le_refl min
  | succ fuel ih =>
    intro min acc
    cases hv : vob maj min with
    | none => simp [vts_minor_go, hv]
    | some d =>
      simp only [vts_minor_go, hv]
      exact Nat.le_trans (Nat.le_succ min) (ih (min + 1) (acc + d.length))

/-- If the titleset's first segment is missing, the inner loop exits at once
with `titlesize = 0` and `min == 1`. -/
theorem vts_minor_scan_gap (vob : Nat → Nat → Option (List Nat)) (maj : Nat)
    (hgap : vob maj 1 = none) : vts_minor_scan vob maj = (0, 1) := by
  have := vts_minor_go_run vob maj 0 1 0 (MAX_VTS_MIN - 1)
    (by intro k hk; omega) (by simpa using hgap) (by omega)
  simpa [vts_minor_scan] using this

/-- If the titleset's first segment is present, the inner loop does not exit
with `min == 1`. -/
theorem vts_minor_scan_exit_ne_one (vob : Nat → Nat → Option (List Nat)) (maj : Nat)
    (d : List Nat) (hd : vob maj 1 = some d) : (vts_minor_scan vob maj).2 ≠ 1 := by
  have step : vts_minor_scan vob maj = vts_minor_go vob maj 8 2 (0 + d.length) := by
    rw [vts_minor_scan, show (MAX_VTS_MIN - 1 : Nat) = 8 + 1 from rfl]
    simp [vts_minor_go, hd]
  rw [step]
  have := vts_minor_go_min_le vob maj 8 2 (0 + d.length)
  omega

/-- One unfolding step of the outer loop. -/
theorem vts_major_go_succ (vob : Nat → Nat → Option (List Nat))
    (fuel maj lmaj lsize : Nat) :
    vts_major_go vob (fuel + 1) maj lmaj lsize =
      if (vts_minor_scan vob maj).2 = 1 then (lmaj, lsize)
      else if lsize < (vts_minor_scan vob maj).1 then
        vts_major_go vob fuel (maj + 1) maj (vts_minor_scan vob maj).1
      else vts_major_go vob fuel (maj + 1) lmaj lsize := rfl

/-- The outer loop stops (returning the running best) at the first major with
no minor-1 segment. -/
theorem vts_major_go_stop (vob : Nat → Nat → Option (List Nat))
    (fuel maj lmaj lsize : Nat) (hgap : vob maj 1 = none) (hfuel : 1 ≤ fuel) :
    vts_major_go vob fuel maj lmaj lsize = (lmaj, lsize) := by
  cases fuel with
  | zero => omega
  | succ fuel => simp [vts_major_go, vts_minor_scan_gap vob maj hgap]

/-- Once a best major ≥ 1 is recorded it can only be replaced by the current
major, so the final best stays ≥ 1. -/
theorem vts_major_go_pos (vob : Nat → Nat → Option (List Nat)) :
    ∀ fuel maj lmaj lsize, 1 ≤ maj → 1 ≤ lmaj →
      1 ≤ (vts_major_go vob fuel maj lmaj lsize).1 := by
  intro fuel
  induction fuel with
  | zero => intro maj lmaj lsize _ h; exact h
  | succ fuel ih =>
    intro maj lmaj lsize hmaj hlmaj
    simp only [vts_major_go]
    by_cases h1 : (vts_minor_scan vob maj).2 = 1
    · rw [if_pos h1]; exact hlmaj
    · rw [if_neg h1]
      by_cases h2 : lsize < (vts_minor_scan vob maj).1
      · rw [if_pos h2]; exact ih (maj + 1) maj _ (by omega) hmaj
      · rw [if_neg h2]; exact ih (maj + 1) lmaj lsize (by omega) hlmaj

/-- Loop invariant: the recorded best size is the aggregate of the recorded
best major. -/
theorem vts_major_go_size_inv (vob : Nat → Nat → Option (List Nat)) :
    ∀ fuel maj lmaj lsize,
      (lmaj ≠ 0 → lsize = (vts_minor_scan vob lmaj).1) →
      (vts_major_go vob fuel maj lmaj lsize).1 ≠ 0 →
      (vts_major_go vob fuel maj lmaj lsize).2 =
        (vts_minor_scan vob (vts_major_go vob fuel maj lmaj lsize).1).1 := by
  intro fuel
  induction fuel with
  | zero => intro maj lmaj lsize hinv hne; exact hinv hne
  | succ fuel ih =>
    intro maj lmaj lsize hinv
    simp only [vts_major_go]
    by_cases h1 : (vts_minor_scan vob maj).2 = 1
    · rw [if_pos h1]; exact hinv
    · rw [if_neg h1]
      by_cases h2 : lsize < (vts_minor_scan vob maj).1
      · rw [if_pos h2]; exact ih (maj + 1) maj _ fun _ => rfl
      · rw [if_neg h2]; exact ih (maj + 1) lmaj lsize hinv

/-- On a successful scan, the reported `total_size` is exactly the inner
loop's aggregate for the winning major. -/
theorem dvdwrap_scan_videots_size (vob : Nat → Nat → Option (List Nat))
    (maj T : Nat) (h : dvdwrap_scan_videots vob = some (maj, T)) :
    T = (vts_minor_scan vob maj).1 := by
  unfold dvdwrap_scan_videots at h
  by_cases hz : (vts_major_go vob (MAX_VTS_MAJ - 1) 1 0 0).1 ≠ 0
  · rw [if_pos hz, Option.some.injEq] at h
    have hinv := vts_major_go_size_inv vob (MAX_VTS_MAJ - 1) 1 0 0
      (fun h0 => absurd rfl h0) hz
    rw [h] at hinv
    exact hinv
  · rw [if_neg hz] at h
    exact absurd h (by simp)

/-! Congruence: the scan consults only VOB slots with minor index ≥ 1, so two
stores agreeing there scan identically (this is how "the minor-0 menu segment
is never counted" is expressed). -/

theorem vts_minor_go_congr (v1 v2 : Nat → Nat → Option (List Nat)) (maj : Nat)
    (hv : ∀ m, 1 ≤ m → v1 maj m = v2 maj m) :
    ∀ fuel min acc, 1 ≤ min →
      vts_minor_go v1 maj fuel min acc = vts_minor_go v2 maj fuel min acc := by
  intro fuel
  induction fuel with
  | zero => intro min acc _; rfl
  | succ fuel ih =>
    intro min acc hmin
    simp only [vts_minor_go, hv min hmin]
    cases v2 maj min with
    | none => rfl
    | some d => exact ih (min + 1) (acc + d.length) (by omega)

theorem vts_minor_scan_congr (v1 v2 : Nat → Nat → Option (List Nat))
    (hv : ∀ M m, 1 ≤ m → v1 M m = v2 M m) (maj : Nat) :
    vts_minor_scan v1 maj = vts_minor_scan v2 maj :=
  vts_minor_go_congr v1 v2 maj (fun m hm => hv maj m hm) (MAX_VTS_MIN - 1) 1 0
    (by omega)

theorem vts_major_go_congr (v1 v2 : Nat → Nat → Option (List Nat))
    (hv : ∀ M m, 1 ≤ m → v1 M m = v2 M m) :
    ∀ fuel maj lmaj lsize,
      vts_major_go v1 fuel maj lmaj lsize = vts_major_go v2 fuel maj lmaj lsize := by
  intro fuel
  induction fuel with
  | zero => intro maj lmaj lsize; rfl
  | succ fuel ih =>
    intro maj lmaj lsize
    simp only [vts_major_go, vts_minor_scan_congr v1 v2 hv maj]
    by_cases h1 : (vts_minor_scan v2 maj).2 = 1
    · rw [if_pos h1, if_pos h1]
    · rw [if_neg h1, if_neg h1]
      by_cases h2 : lsize < (vts_minor_scan v2 maj).1
      · rw [if_pos h2, if_pos h2, ih]
      · rw [if_neg h2, if_neg h2, ih]

theorem dvdwrap_scan_videots_congr (v1 v2 : Nat → Nat → Option (List Nat))
    (hv : ∀ M m, 1 ≤ m → v1 M m = v2 M m) :
    dvdwrap_scan_videots v1 = dvdwrap_scan_videots v2 := by
  unfold dvdwrap_scan_videots
  rw [vts_major_go_congr v1 v2 hv]

/-- If the inner loop exits with `min == 1` then the first segment was
missing. -/
theorem vts_minor_scan_exit_one (vob : Nat → Nat → Option (List Nat)) (maj : Nat)
    (h : (vts_minor_scan vob maj).2 = 1) : vob maj 1 = none := by
  cases hv : vob maj 1 with
  | none => rfl
  | some d => exact absurd h (vts_minor_scan_exit_ne_one vob maj d hv)

/-- Characterization of the outer loop returning `longest_maj = 0` when
started with no recorded best: every major it can reach (no earlier major
lacking its first segment) has aggregate size 0. -/
theorem vts_major_go_zero_iff (vob : Nat → Nat → Option (List Nat)) :
    ∀ fuel maj, 1 ≤ maj →
      ((vts_major_go vob fuel maj 0 0).1 = 0 ↔
        ∀ j, j < fuel → (∀ k, k < j → vob (maj + k) 1 ≠ none) →
          (vts_minor_scan vob (maj + j)).1 = 0) := by
  intro fuel
  induction fuel with
  | zero =>
    intro maj _
    constructor
    · intro _ j hj _; omega
    · intro _; rfl
  | succ fuel ih =>
    intro maj hmaj
    by_cases h1 : (vts_minor_scan vob maj).2 = 1
    · have hnone := vts_minor_scan_exit_one vob maj h1
      have hms := vts_minor_scan_gap vob maj hnone
      constructor
      · intro _ j hj hchain
        cases j with
        | zero => rw [Nat.add_zero, hms]
        | succ j =>
          exact absurd (show vob (maj + 0) 1 = none by simpa using hnone)
            (hchain 0 (by omega))
      · intro _
        simp [vts_major_go, h1]
    · have hsome : vob maj 1 ≠ none := by
        intro hn
        exact h1 (by rw [vts_minor_scan_gap vob maj hn])
      by_cases h2 : (0:Nat) < (vts_minor_scan vob maj).1
      · have hgo : vts_major_go vob (fuel + 1) maj 0 0 =
            vts_major_go vob fuel (maj + 1) maj (vts_minor_scan vob maj).1 := by
          simp [vts_major_go, h1, h2]
        have hpos := vts_major_go_pos vob fuel (maj + 1) maj
          (vts_minor_scan vob maj).1 (by omega) hmaj
        constructor
        · intro hL
          rw [hgo] at hL
          omega
        · intro hR
          have := hR 0 (by omega) (by intro k hk; omega)
          rw [Nat.add_zero] at this
          omega
      · have hz : (vts_minor_scan vob maj).1 = 0 := by omega
        have hgo : vts_major_go vob (fuel + 1) maj 0 0 =
            vts_major_go vob fuel (maj + 1) 0 0 := by
          simp [vts_major_go, h1, h2]
        rw [hgo, ih (maj + 1) (by omega)]
        constructor
        · intro hIH j hj hchain
          cases j with
          | zero => rw [Nat.add_zero]; exact hz
          | succ j =>
            have := hIH j (by omega) ?_
            · have e : maj + 1 + j = maj + (j + 1) := by omega
              rw [e] at this
              exact this
            · intro k hk
              have := hchain (k + 1) (by omega)
              have e : maj + (k + 1) = maj + 1 + k := by omega
              rw [e] at this
              exact this
        · intro hR j hj hchain
          have := hR (j + 1) (by omega) ?_
          · have e : maj + (j + 1) = maj + 1 + j := by omega
            rw [e] at this
            exact this
          · intro k hk
            cases k with
            | zero => rw [Nat.add_zero]; exact hsome
            | succ k =>
              have := hchain k (by omega)
              have e : maj + 1 + k = maj + (k + 1) := by omega
              rw [e] at this
              exact this

/-- The descriptors `dvdwrap_release` would close on the table built by the
open loop are exactly the descriptors the loop opened, provided no opened
segment recorded size 0. -/
theorem dvdwrap_open_vobs_release (vob : Nat → Nat → Option (List Nat))
    (openable : Nat → Nat → Bool) (maj : Nat)
    (hne : ∀ min d, vob maj min = some d → d.length ≠ 0) :
    ∀ fuel min,
      (((dvdwrap_open_vobs vob openable maj fuel min).vts.filter
        fun v => v.size != 0).map fun v => v.fd) =
        (dvdwrap_open_vobs vob openable maj fuel min).opened := by
  intro fuel
  induction fuel with
  | zero => intro min; rfl
  | succ fuel ih =>
    intro min
    cases hv : vob maj min with
    | none =>
      simp [dvdwrap_open_vobs, hv, List.filter_replicate, vts_zero]
    | some d =>
      by_cases hop : openable maj min = true
      · have hd : d.length ≠ 0 := hne min d hv
        simp only [dvdwrap_open_vobs, hv, hop, if_pos]
        rw [List.filter_cons_of_pos (by simpa using hd), List.map_cons, ih (min + 1)]
      · rw [Bool.not_eq_true] at hop
        simp [dvdwrap_open_vobs, hv, hop, List.filter_replicate, vts_zero]

/-- Every descriptor opened by the loop starting at minor `min` is ≥ `min`. -/
theorem dvdwrap_open_vobs_opened_ge (vob : Nat → Nat → Option (List Nat))
    (openable : Nat → Nat → Bool) (maj : Nat) :
    ∀ fuel min x, x ∈ (dvdwrap_open_vobs vob openable maj fuel min).opened →
      (min : Int) ≤ x := by
  intro fuel
  induction fuel with
  | zero => intro min x hx; simp [dvdwrap_open_vobs] at hx
  | succ fuel ih =>
    intro min x hx
    cases hv : vob maj min with
    | none => rw [dvdwrap_open_vobs, hv] at hx; simp at hx
    | some d =>
      by_cases hop : openable maj min = true
      · rw [dvdwrap_open_vobs, hv] at hx
        simp only [hop, if_pos, List.mem_cons] at hx
        rcases hx with rfl | hx
        · exact le_refl _
        · have := ih (min + 1) x hx
          push_cast at this ⊢
          omega
      · rw [Bool.not_eq_true] at hop
        rw [dvdwrap_open_vobs, hv] at hx
        simp [hop] at hx

/-- The descriptors opened by the loop are pairwise distinct. -/
theorem dvdwrap_open_vobs_opened_nodup (vob : Nat → Nat → Option (List Nat))
    (openable : Nat → Nat → Bool) (maj : Nat) :
    ∀ fuel min, (dvdwrap_open_vobs vob openable maj fuel min).opened.Nodup := by
  intro fuel
  induction fuel with
  | zero => intro min; simp [dvdwrap_open_vobs]
  | succ fuel ih =>
    intro min
    cases hv : vob maj min with
    | none => simp [dvdwrap_open_vobs, hv]
    | some d =>
      by_cases hop : openable maj min = true
      · rw [dvdwrap_open_vobs, hv]
        simp only [hop, if_pos, List.nodup_cons]
        refine ⟨?_, ih (min + 1)⟩
        intro hmem
        have := dvdwrap_open_vobs_opened_ge vob openable maj fuel (min + 1)
          (min : Int) hmem
        push_cast at this
        omega
      · rw [Bool.not_eq_true] at hop
        simp [dvdwrap_open_vobs, hv, hop]

/-! ## Claims -/

/-- Claim C1: for every handle produced by a successful `dvdwrap_open`, a read
of `size` bytes at byte `offset` returns exactly the bytes of the
concatenation of the titleset's segment contents (in minor-index order) at
that range — `(concatenation.drop offset).take size` — which in particular
gives the exact bytes whenever `offset + size` lies within the aggregate
(crossing any number of segment boundaries), clamps to the bytes remaining up
to the aggregate end when `offset + size` overshoots it, and is empty at or
past the end. -/
theorem dvdwrap_read_returns_concatenation (fs : Filesystem) (h : dvdwrap_fh_t)
    (hopen : (dvdwrap_open fs).result = OpenResult.ok h) (size offset : Nat) :
    dvdwrap_read h size offset = ((vts_concat h.vts).drop offset).take size :=
  dvdwrap_read_wf h (dvdwrap_open_wf fs h hopen) size offset

/-- Witness for C1 at `fs_main`: a cross-boundary read of 3 bytes at offset 2. -/
theorem dvdwrap_read_returns_concatenation_witness :
    (dvdwrap_open fs_main).result = OpenResult.ok fh_main ∧
    dvdwrap_read fh_main 3 2 = ((vts_concat fh_main.vts).drop 2).take 3 :=
  ⟨by decide, dvdwrap_read_returns_concatenation fs_main fh_main (by decide) 3 2⟩

/-- Claim C9: a read at an offset at or past the aggregate size returns zero
bytes (the empty byte list, i.e. end-of-stream, not an error): `dvdwrap_read`
hits the `offset >= private->total_size` early return. -/
theorem dvdwrap_read_eof_returns_zero_bytes (h : dvdwrap_fh_t) (size offset : Nat)
    (heof : h.total_size ≤ offset) : dvdwrap_read h size offset = [] := by
  rw [dvdwrap_read, if_pos heof]

/-- Witness for C9: reading `fh_main` (aggregate size 5) at offset 5. -/
theorem dvdwrap_read_eof_returns_zero_bytes_witness :
    fh_main.total_size ≤ 5 ∧ dvdwrap_read fh_main 100 5 = [] :=
  ⟨by decide, dvdwrap_read_eof_returns_zero_bytes fh_main 100 5 (by decide)⟩

/-- Claim C10: `dvdwrap_release` returns `-ENOENT` unconditionally — even
when every recorded descriptor is closed and the handle freed, the caller is
told `-ENOENT`, never success. -/
theorem dvdwrap_release_always_enoent (h : dvdwrap_fh_t) :
    (dvdwrap_release h).2 = -ENOENT := rfl

/-- Claim C8: when minor 3 is missing while minors 1, 2 and 4 exist, the
titleset's computed aggregate is exactly the sizes of segments 1 and 2 —
the scan stops at the first gap and segment 4 (`d4`) does not appear in the
result. -/
theorem vts_scan_gap_truncates (vob : Nat → Nat → Option (List Nat)) (maj : Nat)
    (d1 d2 d4 : List Nat)
    (h1 : vob maj 1 = some d1) (h2 : vob maj 2 = some d2)
    (h3 : vob maj 3 = none) (_h4 : vob maj 4 = some d4) :
    (vts_minor_scan vob maj).1 = d1.length + d2.length := by
  have hrun := vts_minor_go_run vob maj 2 1 0 (MAX_VTS_MIN - 1)
    (by intro k hk; interval_cases k <;> simp [h1, h2])
    (by simpa using h3) (by decide)
  have e : (vts_minor_scan vob maj).1 =
      0 + ((List.range' 1 2).map fun i => vobSize vob maj i).sum := by
    rw [vts_minor_scan, hrun]
  rw [e, show List.range' 1 2 = [1, 2] from rfl]
  simp [vobSize, h1, h2]

/-- Witness for C8: a titleset with segments of sizes 4, 6 and 1 at minors
1, 2 and 4 and a gap at minor 3 aggregates to 10. -/
theorem vts_scan_gap_truncates_witness :
    (vts_minor_scan
      (fun _ min =>
        if min = 1 then some [1, 1, 1, 1]
        else if min = 2 then some [2, 2, 2, 2, 2, 2]
        else if min = 4 then some [4] else none) 7).1 = 10 := by
  have := vts_scan_gap_truncates
    (fun _ min =>
      if min = 1 then some [1, 1, 1, 1]
      else if min = 2 then some [2, 2, 2, 2, 2, 2]
      else if min = 4 then some [4] else none) 7
    [1, 1, 1, 1] [2, 2, 2, 2, 2, 2] [4]
    (by decide) (by decide) (by decide) (by decide)
  simpa using this

/-- Claim C2: whenever the scan selects a titleset `maj` whose segments are
exactly minors 1..n (minor n+1 missing), the size reported by
`dvdwrap_getattr` for the synthetic file is exactly the sum of those
segments' sizes, and it is unchanged by whatever is stored at minor index 0
(the menu segment is never included). -/
theorem dvdwrap_getattr_exact_aggregate (fs : Filesystem) (maj T n : Nat)
    (hifo : fs.ifo = true)
    (hscan : dvdwrap_scan_videots fs.vob = some (maj, T))
    (hn : n < MAX_VTS_MIN)
    (hseg : ∀ i, 1 ≤ i → i ≤ n → fs.vob maj i ≠ none)
    (hgap : fs.vob maj (n + 1) = none) :
    dvdwrap_getattr fs =
      StatResult.ok (((List.range' 1 n).map fun i => vobSize fs.vob maj i).sum) ∧
    ∀ menu, dvdwrap_getattr (set_vob fs maj 0 menu) = dvdwrap_getattr fs := by
  have hT := dvdwrap_scan_videots_size fs.vob maj T hscan
  have hrun := vts_minor_go_run fs.vob maj n 1 0 (MAX_VTS_MIN - 1)
    (by intro k hk; exact hseg (1 + k) (by omega) (by omega))
    (by rw [Nat.add_comm 1 n]; exact hgap) (by omega)
  have hsum : T = ((List.range' 1 n).map fun i => vobSize fs.vob maj i).sum := by
    rw [hT, vts_minor_scan, hrun]
    simp
  constructor
  · rw [dvdwrap_getattr, if_pos hifo, hscan, ← hsum]
  · intro menu
    have hv : ∀ M m, 1 ≤ m → (set_vob fs maj 0 menu).vob M m = fs.vob M m := by
      intro M m hm
      simp only [set_vob]
      rw [if_neg]
      rintro ⟨_, rfl⟩
      omega
    simp only [dvdwrap_getattr]
    rw [dvdwrap_scan_videots_congr (set_vob fs maj 0 menu).vob fs.vob hv]
    rfl

/-- Witness for C2 at `fs_main` (segments of 3 and 2 bytes, 7-byte menu):
size 5 reported, unchanged when the menu segment is replaced. -/
theorem dvdwrap_getattr_exact_aggregate_witness :
    dvdwrap_getattr fs_main =
      StatResult.ok (((List.range' 1 2).map fun i => vobSize fs_main.vob 1 i).sum) ∧
    dvdwrap_getattr (set_vob fs_main 1 0 (some [1, 2, 3, 4])) = dvdwrap_getattr fs_main := by
  have h := dvdwrap_getattr_exact_aggregate fs_main 1 5 2 (by decide) (by decide)
    (by decide) (by intro i h1 h2; interval_cases i <;> decide) (by decide)
  exact ⟨h.1, h.2 (some [1, 2, 3, 4])⟩

/-- Counterexample to claim C3 as stated: `fs_gap_major` holds two titlesets
with aggregates A = 5 (major 1) and B = 10 (major 3); since major 2 is empty
the scan never reaches major 3 and selects the smaller titleset A, exposing
major 1's segments rather than B's. -/
theorem scan_largest_counterexample :
    dvdwrap_scan_videots fs_gap_major.vob = some (1, 5) ∧
    (vts_minor_scan fs_gap_major.vob 1).1 = 5 ∧
    (vts_minor_scan fs_gap_major.vob 3).1 = 10 := by decide

/-- Claim C3 (amended): when the two titlesets occupy contiguous majors
reachable from 1 — majors 1 and 2, with nothing at major 3 — and the major-1
aggregate A is smaller than the major-2 aggregate B, the scan selects the
titleset with aggregate B. -/
theorem scan_selects_larger_titleset (vob : Nat → Nat → Option (List Nat))
    (d1 d2 : List Nat)
    (h1 : vob 1 1 = some d1) (h2 : vob 2 1 = some d2) (h3 : vob 3 1 = none)
    (hAB : (vts_minor_scan vob 1).1 < (vts_minor_scan vob 2).1) :
    dvdwrap_scan_videots vob = some (2, (vts_minor_scan vob 2).1) := by
  have e1 := vts_minor_scan_exit_ne_one vob 1 d1 h1
  have e2 := vts_minor_scan_exit_ne_one vob 2 d2 h2
  have hgo : vts_major_go vob (MAX_VTS_MAJ - 1) 1 0 0 =
      (2, (vts_minor_scan vob 2).1) := by
    rw [show (MAX_VTS_MAJ - 1 : Nat) = 98 + 1 from rfl, vts_major_go_succ,
      if_neg e1]
    by_cases hA : (0:Nat) < (vts_minor_scan vob 1).1
    · rw [if_pos hA, show (98:Nat) = 97 + 1 from rfl, vts_major_go_succ,
        if_neg e2, if_pos hAB]
      exact vts_major_go_stop vob 97 3 2 _ h3 (by omega)
    · rw [if_neg hA, show (98:Nat) = 97 + 1 from rfl, vts_major_go_succ,
        if_neg e2, if_pos (show (0:Nat) < (vts_minor_scan vob 2).1 by omega)]
      exact vts_major_go_stop vob 97 3 2 _ h3 (by omega)
  unfold dvdwrap_scan_videots
  rw [hgo]
  simp

/-- Witness for the amended C3 at `fs_two_titlesets` (A = 2 < B = 7). -/
theorem scan_selects_larger_titleset_witness :
    (vts_minor_scan fs_two_titlesets.vob 1).1 < (vts_minor_scan fs_two_titlesets.vob 2).1 ∧
    dvdwrap_scan_videots fs_two_titlesets.vob =
      some (2, (vts_minor_scan fs_two_titlesets.vob 2).1) :=
  ⟨by decide,
    scan_selects_larger_titleset fs_two_titlesets.vob [1, 2] [1, 2, 3, 4, 5, 6, 7]
      (by decide) (by decide) (by decide) (by decide)⟩

/-- Counterexample to claim C5 as stated: in `fs_only_major2` the major
number 2 (within the bounded range) has a segment at minor 1, yet the scan
fails with NotFound because it stops at major 1, which has no first
segment — so "fails iff no major in the range has at least one segment" is
false. -/
theorem scan_notfound_counterexample :
    dvdwrap_scan_videots fs_only_major2.vob = none ∧
    fs_only_major2.vob 2 1 ≠ none ∧ 1 ≤ 2 ∧ 2 < MAX_VTS_MAJ := by decide

/-- Claim C5 (amended): the scan walks major numbers upward from 1, summing
each reachable major's segment sizes from minor 1 and stopping the whole
enumeration at the first major with no minor-1 segment; it fails with
NotFound if and only if every major it can reach this way (every earlier
major has a minor-1 segment) has aggregate size zero. -/
theorem dvdwrap_scan_videots_none_iff (vob : Nat → Nat → Option (List Nat)) :
    dvdwrap_scan_videots vob = none ↔
      ∀ maj, 1 ≤ maj → maj < MAX_VTS_MAJ →
        (∀ m, 1 ≤ m → m < maj → vob m 1 ≠ none) →
        (vts_minor_scan vob maj).1 = 0 := by
  have hz := vts_major_go_zero_iff vob (MAX_VTS_MAJ - 1) 1 (Nat.le_refl 1)
  have hnone : dvdwrap_scan_videots vob = none ↔
      (vts_major_go vob (MAX_VTS_MAJ - 1) 1 0 0).1 = 0 := by
    simp only [dvdwrap_scan_videots]
    by_cases hne : (vts_major_go vob (MAX_VTS_MAJ - 1) 1 0 0).1 ≠ 0
    · rw [if_pos hne]
      simp [hne]
    · rw [if_neg hne]
      simp only [not_not] at hne
      simp [hne]
  rw [hnone, hz]
  constructor
  · intro hL maj hmaj1 hmaj2 hchain
    have := hL (maj - 1) (by simp only [MAX_VTS_MAJ] at hmaj2 ⊢; omega) ?_
    · rw [show 1 + (maj - 1) = maj by omega] at this
      exact this
    · intro k hk
      have := hchain (1 + k) (by omega) (by omega)
      exact this
  · intro hR j hj hchain
    have := hR (1 + j) (by omega)
      (by simp only [MAX_VTS_MAJ] at hj ⊢; omega) ?_
    · exact this
    · intro m hm1 hm2
      have := hchain (m - 1) (by omega)
      rw [show 1 + (m - 1) = m by omega] at this
      exact this

/-- Counterexample to claim C4 as stated: the leaf name `foo.mpg` does not
parse, stripped of the suffix, as a non-negative integer of at most two
digits (so the claim would make it a passthrough entity), yet the program's
classification test accepts it as a synthetic titleset file — the code checks
only the suffix. -/
theorem classification_counterexample :
    ends_with_extension ("foo.mpg".toList) = true ∧
    spec_classifies_titleset ("foo.mpg".toList) = false := by decide

/-- Claim C4 (amended): a leaf name (of at least the suffix's length, shorter
names index out of bounds in C) is classified as a synthetic titleset file if
and only if it ends with the fixed suffix `.mpg` — no digit condition is
applied — and in that case the real path used further is the name with the
suffix removed; any other leaf name is a passthrough entity whose real path
is used unmodified. -/
theorem ends_with_extension_characterization (s : List Char)
    (hlen : FILE_EXTENSION.length ≤ s.length) :
    (ends_with_extension s = true ↔ ∃ stem, s = stem ++ FILE_EXTENSION) ∧
    (ends_with_extension s = true → strip_extension s ++ FILE_EXTENSION = s) := by
  have hdrop : ends_with_extension s = true ↔
      s.drop (s.length - FILE_EXTENSION.length) = FILE_EXTENSION := by
    rw [ends_with_extension, decide_eq_true_iff]
  constructor
  · constructor
    · intro h
      have hd := hdrop.mp h
      refine ⟨s.take (s.length - FILE_EXTENSION.length), ?_⟩
      calc s = s.take (s.length - FILE_EXTENSION.length) ++
            s.drop (s.length - FILE_EXTENSION.length) :=
          (List.take_append_drop _ s).symm
        _ = s.take (s.length - FILE_EXTENSION.length) ++ FILE_EXTENSION := by
          rw [hd]
    · rintro ⟨stem, rfl⟩
      rw [hdrop, show (stem ++ FILE_EXTENSION).length - FILE_EXTENSION.length =
        stem.length by rw [List.length_append]; omega, List.drop_left]
  · intro h
    have hd := hdrop.mp h
    calc strip_extension s ++ FILE_EXTENSION
        = s.take (s.length - FILE_EXTENSION.length) ++
            s.drop (s.length - FILE_EXTENSION.length) := by
          rw [strip_extension, hd]
      _ = s := List.take_append_drop _ s

/-- Witness for the amended C4 at the leaf name `01.mpg`. -/
theorem ends_with_extension_characterization_witness :
    FILE_EXTENSION.length ≤ ("01.mpg".toList).length ∧
    (ends_with_extension ("01.mpg".toList) = true ↔
      ∃ stem, "01.mpg".toList = stem ++ FILE_EXTENSION) :=
  ⟨by decide, (ends_with_extension_characterization "01.mpg".toList (by decide)).1⟩

/-- Counterexample to claim C6 as stated: `fs_no_ifo` lacks the
`VIDEO_TS.IFO` index file, and the attribute query fails with `-ENOENT` as
the claim says, but `dvdwrap_open` succeeds — it never performs the
index-file pre-flight check. -/
theorem open_ignores_index_counterexample :
    fs_no_ifo.ifo = false ∧
    dvdwrap_getattr fs_no_ifo = StatResult.err (-ENOENT) ∧
    (dvdwrap_open fs_no_ifo).result = OpenResult.ok fh_no_ifo := by decide

/-- Claim C6 (amended): when the index file is missing the attribute query
fails with NotFound, while `dvdwrap_open` — which re-runs the scan
independently but has no index-file pre-flight check — behaves exactly as if
the index file were present. -/
theorem getattr_notfound_open_ignores_index (fs : Filesystem)
    (h : fs.ifo = false) :
    dvdwrap_getattr fs = StatResult.err (-ENOENT) ∧
    ∀ b, dvdwrap_open { fs with ifo := b } = dvdwrap_open fs := by
  constructor
  · rw [dvdwrap_getattr, if_neg (by simp [h])]
  · intro b
    rfl

/-- Witness for the amended C6 at `fs_no_ifo`. -/
theorem getattr_notfound_open_ignores_index_witness :
    fs_no_ifo.ifo = false ∧
    dvdwrap_getattr fs_no_ifo = StatResult.err (-ENOENT) ∧
    dvdwrap_open { fs_no_ifo with ifo := true } = dvdwrap_open fs_no_ifo :=
  ⟨by decide, (getattr_notfound_open_ignores_index fs_no_ifo (by decide)).1,
    (getattr_notfound_open_ignores_index fs_no_ifo (by decide)).2 true⟩

/-- Counterexample to claim C7 as stated: opening `fs_empty_segment` opens
descriptors for minors 1 and 2, but because segment 1 recorded size 0,
`dvdwrap_release` (which closes only entries with nonzero `size`) closes only
descriptor 2 — descriptor 1 is opened and never closed. -/
theorem release_leak_counterexample :
    (dvdwrap_open fs_empty_segment).result = OpenResult.ok fh_empty_segment ∧
    (dvdwrap_open fs_empty_segment).opened = [1, 2] ∧
    (dvdwrap_release fh_empty_segment).1 = [2] := by decide

/-- Claim C7 (amended): `dvdwrap_release` closes exactly the descriptors of
segments recorded with nonzero size, so provided every segment file is
non-empty, every descriptor opened by `dvdwrap_open` is closed exactly once
(the closed list equals the opened list, which has no duplicates) — both when
a successfully opened handle is released and when `dvdwrap_open` cleans up a
partially completed open on its failure path; a zero-byte segment's
descriptor, however, is skipped. -/
theorem dvdwrap_release_closes_opened (fs : Filesystem)
    (hne : ∀ maj min d, fs.vob maj min = some d → d.length ≠ 0) :
    (dvdwrap_open fs).opened.Nodup ∧
    (∀ h, (dvdwrap_open fs).result = OpenResult.ok h →
      (dvdwrap_release h).1 = (dvdwrap_open fs).opened) ∧
    (∀ e, (dvdwrap_open fs).result = OpenResult.err e →
      (dvdwrap_open fs).closed_on_fail = (dvdwrap_open fs).opened) := by
  cases hscan : dvdwrap_scan_videots fs.vob with
  | none =>
    refine ⟨?_, ?_, ?_⟩
    · rw [dvdwrap_open, hscan]; exact List.nodup_nil
    · intro h hok
      rw [dvdwrap_open, hscan] at hok
      simp at hok
    · intro e _
      rw [dvdwrap_open, hscan]
  | some r =>
    have hrel := dvdwrap_open_vobs_release fs.vob fs.openable r.1
      (fun min d hd => hne r.1 min d hd) (MAX_VTS_MIN - 1) 1
    have hnd := dvdwrap_open_vobs_opened_nodup fs.vob fs.openable r.1
      (MAX_VTS_MIN - 1) 1
    by_cases hok : (dvdwrap_open_vobs fs.vob fs.openable r.1 (MAX_VTS_MIN - 1) 1).ok = true
    · refine ⟨?_, ?_, ?_⟩
      · rw [dvdwrap_open, hscan]
        simp only [if_pos hok]
        exact hnd
      · intro h hh
        rw [dvdwrap_open, hscan] at hh ⊢
        simp only [if_pos hok] at hh ⊢
        rw [← OpenResult.ok.inj hh]
        exact hrel
      · intro e he
        rw [dvdwrap_open, hscan] at he
        simp only [if_pos hok] at he
        simp at he
    · refine ⟨?_, ?_, ?_⟩
      · rw [dvdwrap_open, hscan]
        simp only [if_neg hok]
        exact hnd
      · intro h hh
        rw [dvdwrap_open, hscan] at hh
        simp only [if_neg hok] at hh
        simp at hh
      · intro e _
        rw [dvdwrap_open, hscan]
        simp only [if_neg hok]
        exact hrel

/-- Witness for the amended C7 at `fs_main` (all segments non-empty):
releasing the opened handle closes exactly the opened descriptors. -/
theorem dvdwrap_release_closes_opened_witness :
    (dvdwrap_open fs_main).opened.Nodup ∧
    (dvdwrap_release fh_main).1 = (dvdwrap_open fs_main).opened := by
  have hne : ∀ maj min d, fs_main.vob maj min = some d → d.length ≠ 0 := by
    intro maj min d hd
    simp only [fs_main] at hd
    split_ifs at hd
    all_goals rw [← Option.some.inj hd]; decide
  have h := dvdwrap_release_closes_opened fs_main hne
  exact ⟨h.1, h.2.1 fh_main (by decide)⟩

end Dvdwrap
